import Mathlib

/-!
Verification development for the MapCor correlation / association engine.

Shallow embedding of the Python sources:
  * stat_corr_types.py : TColumnPair, TStatCorr (the pair store)
  * corr_calculations.py : rank_array, spearman_corr, join_percent,
    calculate_rr_for_pair, calculate_all_correlations
  * associations.py : build_associations

Modelling conventions.
  * A Python float value is modelled exactly: every IEEE double that the
    program stores is either NaN or a rational number, so stored scalars are
    `RVal` (NaN or an exact rational).  Exact rational arithmetic replaces
    floating point rounding.
  * A Spearman correlation value is of the form cov / sqrt(sa * sb) with
    cov, sa, sb rational, hence irrational in general; it is represented
    exactly and symbolically by `SpearRes.val cov (sa * sb)`, meaning the real
    number cov / Real.sqrt (sa * sb).  The sentinel 0.0 is `SpearRes.val 0 1`
    and NaN is `SpearRes.nan`, so the three kinds of results stay distinct.
  * scipy.stats.spearmanr (used by spearman_corr) ranks each vector with
    average ranks on exactly-equal ties and takes the Pearson correlation of
    the rank vectors; with nan_policy left at its default it returns NaN as
    soon as an input value is NaN, and returns NaN on constant (zero rank
    variance) input.  The rank of x in v is the standard closed form
    #{y in v | y < x} + (#{y in v | y = x} + 1) / 2.
  * np.argsort is modelled as a stable sort of the index list with NaN
    ordered last; numpy's tie order inside argsort is implementation defined
    but fixed, and none of the verified statements depend on it.
  * Python dict/set iteration over small ints is deterministic; iteration
    over a set of feature indices is modelled as iteration in ascending
    order, matching the canonical deterministic choice.
-/

/-- Exact model of a stored Python float: NaN or a rational value. -/
inductive RVal where
  | nan : RVal
  | q : ℚ → RVal
deriving DecidableEq, Repr

namespace RVal

/-- NaN test (math.isnan / np.isnan). -/
def isNaN : RVal → Bool
  | nan => true
  | q _ => false

/-- Comparison used by the argsort model: numeric order with NaN sorted
last, as np.argsort does.  Total, so a stable sort on it is well defined. -/
def le : RVal → RVal → Bool
  | q a, q b => a ≤ b
  | q _, nan => true
  | nan, q _ => false
  | nan, nan => true

/-- Strict numeric order on non-NaN values; NaN compares as the largest
element (matching `le`). -/
def lt : RVal → RVal → Bool
  | q a, q b => a < b
  | q _, nan => true
  | nan, _ => false

end RVal

/-- Exact model of a Spearman correlation result: either NaN, or the real
number num / Real.sqrt den (with den > 0 whenever constructed below).
A plain rational x is represented as `val x 1`. -/
inductive SpearRes where
  | nan : SpearRes
  | val : ℚ → ℚ → SpearRes
deriving DecidableEq, Repr

namespace SpearRes

/-- The represented real value equals 1.  For `val n d` with d > 0 this is
n / sqrt d = 1, i.e. 0 < n and n ^ 2 = d; NaN is never 1. -/
def IsOne : SpearRes → Prop
  | nan => False
  | val n d => 0 < n ∧ n ^ 2 = d

instance : DecidablePred IsOne := fun r =>
  match r with
  | nan => isFalse (fun h => h)
  | val _ _ => instDecidableAnd

end SpearRes

/-! ### Average ranks with exact-equality ties (scipy.stats.rankdata, method
'average'), the rank transform inside scipy.stats.spearmanr. -/

/-- Number of entries of v strictly below x (NaN-free inputs only are ever
ranked: spearman bails out to NaN first if a NaN is present). -/
def countLT (v : List RVal) (x : RVal) : ℕ :=
  (v.filter (fun y => RVal.lt y x)).length

/-- Number of entries of v exactly equal to x. -/
def countEQ (v : List RVal) (x : RVal) : ℕ :=
  (v.filter (fun y => y = x)).length

/-- Average rank (1-based, midrank tie convention) of the value x within v:
the closed form countLT + (countEQ + 1) / 2. -/
def rankVal (v : List RVal) (x : RVal) : ℚ :=
  (countLT v x : ℚ) + ((countEQ v x : ℚ) + 1) / 2

/-- Rank vector of v under the average-rank convention. -/
def avgRanks (v : List RVal) : List ℚ :=
  v.map (rankVal v)

/-- Mean of a list of rationals (callers guarantee nonempty input). -/
def meanQ (l : List ℚ) : ℚ := l.sum / l.length

/-- Sum of squared deviations from the mean. -/
def devSq (l : List ℚ) : ℚ :=
  (l.map (fun r => (r - meanQ l) ^ 2)).sum

/-- Sum of products of deviations of two (equal length) lists. -/
def devProd (la lb : List ℚ) : ℚ :=
  ((la.zip lb).map (fun p => (p.1 - meanQ la) * (p.2 - meanQ lb))).sum

/-- Core of scipy.stats.spearmanr on two equal-length value vectors:
NaN if fewer than 2 observations, if any input is NaN (nan_policy
'propagate'), or if either rank vector is constant (zero variance,
ConstantInputWarning); otherwise the exact Pearson correlation of the two
average-rank vectors, represented as `val cov (sa * sb)` = cov / sqrt(sa*sb). -/
def spearman (va vb : List RVal) : SpearRes :=
  if va.length < 2 then SpearRes.nan
  else if va.any RVal.isNaN || vb.any RVal.isNaN then SpearRes.nan
  else
    let ra := avgRanks va
    let rb := avgRanks vb
    let sa := devSq ra
    let sb := devSq rb
    if sa = 0 ∨ sb = 0 then SpearRes.nan
    else SpearRes.val (devProd ra rb) (sa * sb)

/-- Clip of np.clip(x, 1e-10, None) applied when log_scale is set.  The
subsequent np.log10 is omitted from the model: log10 is strictly increasing
on [1e-10, ∞), so it changes neither the ordering nor the equalities of the
clipped values, and the Spearman correlation depends on the values only
through their ranks.  NaN passes through np.clip and np.log10 unchanged. -/
def logClip (logScale : Bool) : RVal → RVal
  | RVal.nan => RVal.nan
  | RVal.q x => if logScale then RVal.q (max x (1 / 10 ^ 10)) else RVal.q x

/-- Embedding of corr_calculations.spearman_corr: collect the two columns
with get_data, optionally log-transform, and delegate to scipy's spearmanr
(modelled by `spearman`). -/
def spearman_corr (getData : ℕ → ℕ → RVal) (colA colB numRecords : ℕ)
    (logScale : Bool) : SpearRes :=
  if numRecords < 2 then SpearRes.nan
  else
    let va := (List.range numRecords).map (fun i => logClip logScale (getData colA i))
    let vb := (List.range numRecords).map (fun i => logClip logScale (getData colB i))
    spearman va vb

/-! ### np.argsort and the top-percentile overlap statistic join_percent. -/

/-- Model of np.argsort on a list of float values: the index list 0..n-1
sorted stably by value, NaN last.  insertionSort is a stable sort, so ties
keep ascending index order (a fixed deterministic choice; np.argsort's
quicksort tie order is implementation defined but also deterministic, and no
verified statement depends on the tie order). -/
def argsortRV (vals : List RVal) : List ℕ :=
  (List.range vals.length).insertionSort
    (fun i j => RVal.le (vals.getD i (RVal.q 0)) (vals.getD j (RVal.q 0)) = true)

/-- Embedding of corr_calculations.join_percent.  Guards: fewer than 2
records or percent outside (0, 100] give 0.0.  cnt_sel is Python
int(num_records * percent / 100.0), i.e. the floor of a nonnegative value.
Top sets are the last cnt_sel argsort positions; the result is
cnt_11 * 100 / (2 * cnt_sel - cnt_11), or 0.0 for a zero denominator. -/
def join_percent (getData : ℕ → ℕ → RVal) (colA colB numRecords : ℕ)
    (percent : ℚ) : ℚ :=
  if numRecords < 2 ∨ percent ≤ 0 ∨ 100 < percent then 0
  else
    let cntSel : ℕ := (⌊(numRecords * percent) / 100⌋).toNat
    if cntSel = 0 then 0
    else
      let valsA := (List.range numRecords).map (getData colA)
      let valsB := (List.range numRecords).map (getData colB)
      let topA := (argsortRV valsA).drop (numRecords - cntSel)
      let topB := (argsortRV valsB).drop (numRecords - cntSel)
      let cnt11 : ℕ := (topA.filter (fun x => topB.contains x)).length
      let denom : ℤ := 2 * (cntSel : ℤ) - (cnt11 : ℤ)
      if denom = 0 then 0 else (cnt11 : ℚ) * 100 / (denom : ℚ)

/-! ### rank_array: the repository's own rank function with tolerance-based
tie grouping (corr_calculations.rank_array).  It sorts the values, chains
together consecutive sorted values closer than 1e-9, and assigns each chain
the closed-form midrank (i + j + 2) / 2 of its 0-based position range
[i, j]. -/

/-- Tie tolerance of rank_array. -/
def rankTol : ℚ := 1 / 1000000000

/-- Stable argsort of a rational list (np.argsort in rank_array). -/
def argsortQ (v : List ℚ) : List ℕ :=
  (List.range v.length).insertionSort
    (fun i j => v.getD i 0 ≤ v.getD j 0)

/-- Split a sorted value list into the maximal chains of consecutive values
within the tolerance: this is exactly the inner while loop of rank_array,
which extends j while |s (j) - s (j+1)| < 1e-9. -/
def chainChunks : List ℚ → List (List ℚ)
  | [] => []
  | [x] => [[x]]
  | x :: y :: rest =>
    match chainChunks (y :: rest) with
    | [] => [[x]]
    | c :: cs =>
      if |x - y| < rankTol then (x :: c) :: cs else [x] :: c :: cs

/-- Ranks of the sorted positions: the chunk occupying 0-based positions
off .. off + len - 1 receives the constant rank (off + (off + len - 1) + 2) / 2,
exactly the temp_rank = (i + j + 2) / 2 of the source. -/
def chunkRanks (off : ℕ) : List (List ℚ) → List ℚ
  | [] => []
  | c :: cs =>
    c.map (fun _ => ((off : ℚ) + ((off + c.length - 1 : ℕ) : ℚ) + 2) / 2)
      ++ chunkRanks (off + c.length) cs

/-- Embedding of corr_calculations.rank_array: rank the sorted positions by
tolerance chains, then route rank number k back to original index
indices[k] (so position p reads the rank at its sorted position). -/
def rank_array (v : List ℚ) : List ℚ :=
  let idx := argsortQ v
  let sortedVals := idx.map (fun i => v.getD i 0)
  let rs := chunkRanks 0 (chainChunks sortedVals)
  (List.range v.length).map (fun p => rs.getD (idx.indexOf p) 0)

/-! ### The pair store (stat_corr_types.py). -/

/-- stat_corr_types.TColumnPair: a canonicalized unordered feature pair,
col1 ≤ col2 for pairs created through TColumnPair.create. -/
structure TColumnPair where
  col1 : ℕ
  col2 : ℕ
deriving DecidableEq, Repr

/-- stat_corr_types.TFeatureStat (per-feature summary record). -/
structure TFeatureStat where
  feature_idx : ℕ
  pair_count : ℕ
  avg_corr : RVal
  avg_dist10 : RVal
  avg_rr : RVal
deriving DecidableEq, Repr

/-- stat_corr_types.TStatCorr: the pair store.  Every float list holds
doubles, modelled by RVal.  The aggregate statistics record and the two
reserve lists are carried but never read by the verified operations. -/
structure TStatCorr where
  column_names : List String
  pairs : List TColumnPair
  pair_names : List String
  corr : List RVal
  dist10 : List RVal
  rr : List RVal
  reserve1 : List RVal
  reserve2 : List RVal
  feature_stats : List TFeatureStat
deriving DecidableEq, Repr

namespace TStatCorr

/-- TStatCorr.count: the number of registered pairs. -/
def count (s : TStatCorr) : ℕ := s.pairs.length

/-- TStatCorr.find_pair_index: linear scan for the exact (col1, col2)
record, -1 when absent. -/
def find_pair_index (s : TStatCorr) (c1 c2 : ℕ) : ℤ :=
  match s.pairs.findIdx? (fun p => p.col1 = c1 ∧ p.col2 = c2) with
  | some i => (i : ℤ)
  | none => -1

/-- TStatCorr.get_pair_index: canonicalize to (min, max) first. -/
def get_pair_index (s : TStatCorr) (c1 c2 : ℕ) : ℤ :=
  s.find_pair_index (min c1 c2) (max c1 c2)

/-- Bounds-checked list read shared by get_corr: 0.0 when the index is out
of range. -/
def getCorrAt (corr : List RVal) (index : ℤ) : RVal :=
  if 0 ≤ index ∧ index < (corr.length : ℤ) then
    corr.getD index.toNat (RVal.q 0)
  else RVal.q 0

/-- TStatCorr.get_corr with its bounds check (0.0 out of range). -/
def get_corr (s : TStatCorr) (index : ℤ) : RVal :=
  getCorrAt s.corr index

end TStatCorr

/-! ### Meta-correlation RR (corr_calculations.calculate_rr_for_pair). -/

/-- The collection loop of calculate_rr_for_pair: for every feature i other
than the two endpoints, when both (colA, i) and (colB, i) are registered
pairs, append their stored correlations to the two vectors.  The stored
correlation is appended unconditionally, whether or not it is NaN. -/
def rrVectors (s : TStatCorr) (colA colB : ℕ) : List RVal × List RVal :=
  (List.range s.column_names.length).foldl
    (fun acc i =>
      if i = colA ∨ i = colB then acc
      else
        let idxAC := s.get_pair_index colA i
        let idxBC := s.get_pair_index colB i
        if idxAC = -1 ∨ idxBC = -1 then acc
        else (acc.1 ++ [s.get_corr idxAC], acc.2 ++ [s.get_corr idxBC]))
    ([], [])

/-- Embedding of corr_calculations.calculate_rr_for_pair, returning the
value handed to set_rr for the pair at pair_idx (set_rr then stores it at
that index, bounds permitting).  Fewer than 3 features, or fewer than 2
collected common features, give the sentinel 0.0; otherwise the Spearman
correlation of the two collected vectors (common_count records, no log
scale).  An out-of-range pair_idx makes get_pair return the dummy pair
(-1, -1), for which no third feature matches any registered pair, so the
collection is empty and the sentinel 0.0 results; the none branch returns
it directly. -/
def calculate_rr_for_pair (s : TStatCorr) (pairIdx : ℕ) : SpearRes :=
  match s.pairs.get? pairIdx with
  | none => SpearRes.val 0 1
  | some pair =>
    if s.column_names.length < 3 then SpearRes.val 0 1
    else
      let v := rrVectors s pair.col1 pair.col2
      if v.1.length < 2 then SpearRes.val 0 1
      else spearman v.1 v.2

/-- Modelled from the claim's words, for comparison with the source: the
variant of the RR collection that also skips a feature i whenever either
stored correlation is invalid (NaN) — the source function does not do
this. -/
def rrVectorsSpec (s : TStatCorr) (colA colB : ℕ) : List RVal × List RVal :=
  (List.range s.column_names.length).foldl
    (fun acc i =>
      if i = colA ∨ i = colB then acc
      else
        let idxAC := s.get_pair_index colA i
        let idxBC := s.get_pair_index colB i
        if idxAC = -1 ∨ idxBC = -1 then acc
        else if (s.get_corr idxAC).isNaN || (s.get_corr idxBC).isNaN then acc
        else (acc.1 ++ [s.get_corr idxAC], acc.2 ++ [s.get_corr idxBC]))
    ([], [])

/-- Modelled from the claim's words: calculate_rr_for_pair as the claim
describes it, skipping features with invalid correlations. -/
def calculate_rr_for_pairSpec (s : TStatCorr) (pairIdx : ℕ) : SpearRes :=
  match s.pairs.get? pairIdx with
  | none => SpearRes.val 0 1
  | some pair =>
    if s.column_names.length < 3 then SpearRes.val 0 1
    else
      let v := rrVectorsSpec s pair.col1 pair.col2
      if v.1.length < 2 then SpearRes.val 0 1
      else spearman v.1 v.2

/-! ### AssociationBuilder (associations.py, build_associations).

The Python set of unclaimed feature indices is modelled as a list kept
sorted and duplicate-free; all iterations over it run in ascending order
(CPython's small-int set iteration is deterministic; ascending order is the
canonical deterministic choice, and no verified statement depends on the
iteration order beyond it being fixed).  Python's stable sorts (sorted,
list.sort) are modelled by insertionSort, which is stable. -/

/-- Configuration dict of build_associations. -/
structure AssocParams where
  threshold_root : ℚ
  threshold_avg : ℚ
  max_iters : ℤ
  convergence_epsilon : ℚ
deriving DecidableEq, Repr

/-- A working cluster: member features (list, as in the source) and the
designated root. -/
structure Cluster where
  features : List ℕ
  root : ℕ
deriving DecidableEq, Repr

/-- A finished cluster as returned by build_associations, with the two
derived averages. -/
structure FinalCluster where
  features : List ℕ
  root : ℕ
  internal_avg_r : ℚ
  external_avg_r : RVal
deriving DecidableEq, Repr

/-- Clamping a stored correlation for the matrix: NaN to 0.0, then negatives
to 0.0 (only positive association is used for clustering). -/
def clampCorr : RVal → ℚ
  | RVal.nan => 0
  | RVal.q r => max r 0

/-- Pointwise update of a matrix modelled as a function. -/
def matUpd (M : ℕ → ℕ → ℚ) (i j : ℕ) (r : ℚ) : ℕ → ℕ → ℚ :=
  fun a b => if a = i ∧ b = j then r else M a b

/-- The symmetric writes of the matrix-building loop: each registered pair
writes its clamped correlation at both (col1, col2) and (col2, col1), later
pairs overwriting earlier ones, starting from the zero matrix. -/
def corrMatrixBase (pairs : List TColumnPair) (corr : List RVal) : ℕ → ℕ → ℚ :=
  (List.range pairs.length).foldl
    (fun M i =>
      let p := pairs.getD i ⟨0, 0⟩
      let r := clampCorr (TStatCorr.getCorrAt corr (i : ℤ))
      matUpd (matUpd M p.col1 p.col2 r) p.col2 p.col1 r)
    (fun _ _ => 0)

/-- The dense correlation matrix of build_associations: the pair writes
followed by np.fill_diagonal(, 1.0), which runs after the loop and forces
every diagonal entry to 1. -/
def corrMatrix (pairs : List TColumnPair) (corr : List RVal) : ℕ → ℕ → ℚ :=
  fun a b => if a = b then 1 else corrMatrixBase pairs corr a b

/-- Row mean of the matrix over all n features (corr_matrix.iloc[a].mean()). -/
def rowMean (M : ℕ → ℕ → ℚ) (n a : ℕ) : ℚ :=
  ((List.range n).map (M a)).sum / n

/-- Mean correlation of feature f to a list of members
(corr_matrix.loc[f, feats].mean(); callers pass nonempty feats). -/
def memberMean (M : ℕ → ℕ → ℚ) (f : ℕ) (feats : List ℕ) : ℚ :=
  (feats.map (M f)).sum / feats.length

/-- All ordered pairs (a, b) with a < b from the scan list, in scan order:
the double loop `for a in list(available): for b in list(available)`. -/
def orderedPairs (l : List ℕ) : List (ℕ × ℕ) :=
  l.flatMap (fun a => l.filterMap (fun b => if a < b then some (a, b) else none))

/-- The max-pair scan of the seeding phase: running maximum (strict
improvement, so the first maximal pair in scan order wins) over pairs whose
matrix value is at least threshold_root; max_r starts at -1. -/
def findBestPair (M : ℕ → ℕ → ℚ) (tr : ℚ) (avail : List ℕ) : Option (ℕ × ℕ) :=
  (orderedPairs avail).foldl
    (fun best ab =>
      let cur : ℚ := match best with
        | none => -1
        | some p => M p.1 p.2
      if M ab.1 ab.2 > cur ∧ M ab.1 ab.2 ≥ tr then some ab else best)
    none

/-- The candidate admission loop of seeding: scan the candidates in order,
admitting one when its correlation to root reaches threshold_root and its
mean correlation to the current (growing) cluster reaches threshold_avg. -/
def admitLoop (M : ℕ → ℕ → ℚ) (tr ta : ℚ) (root : ℕ) :
    List ℕ → List ℕ → List ℕ
  | [], cluster => cluster
  | c :: rest, cluster =>
    if M c root ≥ tr ∧ memberMean M c cluster ≥ ta then
      admitLoop M tr ta root rest (cluster ++ [c])
    else
      admitLoop M tr ta root rest cluster

/-- Candidate order of seeding: the unclaimed features other than the seed
pair, sorted stably by correlation-to-root descending (ties keep ascending
index order). -/
def candList (M : ℕ → ℕ → ℚ) (root : ℕ) (avail : List ℕ) (a b : ℕ) : List ℕ :=
  (avail.filter (fun x => x ≠ a ∧ x ≠ b)).insertionSort
    (fun c d => M d root ≤ M c root)

/-- Seeding phase (the inner `while available` loop of phase 1).  Each pass
removes the finished cluster (at least the two seed members) from the
unclaimed list, so with fuel set to the length of the unclaimed list the
fuel can never run out before the no-strong-pair break fires. -/
def seedLoop (M : ℕ → ℕ → ℚ) (n : ℕ) (tr ta : ℚ) :
    ℕ → List ℕ → List Cluster → List ℕ × List Cluster
  | 0, avail, acc => (avail, acc)
  | fuel + 1, avail, acc =>
    match findBestPair M tr avail with
    | none => (avail, acc)
    | some (a, b) =>
      let root := if rowMean M n a > rowMean M n b then a else b
      let partner := if rowMean M n a > rowMean M n b then b else a
      let cluster := admitLoop M tr ta root (candList M root avail a b) [root, partner]
      let cl : Cluster := ⟨cluster.insertionSort (· ≤ ·), root⟩
      seedLoop M n tr ta fuel (avail.filter (fun x => !(cluster.contains x))) (acc ++ [cl])

/-- Weeding of one cluster: non-root members whose correlation to the root
is below threshold_root are removed and reported. -/
def weedCluster (M : ℕ → ℕ → ℚ) (tr : ℚ) (cl : Cluster) : Cluster × List ℕ :=
  let weak := cl.features.filter (fun f => f ≠ cl.root ∧ M f cl.root < tr)
  (⟨cl.features.filter (fun f => !(weak.contains f)), cl.root⟩, weak)

/-- Weeding phase over all clusters, collecting the weak features in
cluster order. -/
def weedPhase (M : ℕ → ℕ → ℚ) (tr : ℚ) : List Cluster → List Cluster × List ℕ
  | [] => ([], [])
  | cl :: rest =>
    let w := weedCluster M tr cl
    let r := weedPhase M tr rest
    (w.1 :: r.1, w.2 ++ r.2)

/-- Sorted-set union: add the weeded features back into the unclaimed list
(available.update(weak_features)). -/
def listUnion (l xs : List ℕ) : List ℕ :=
  (l ++ (xs.dedup.filter (fun x => !(l.contains x)))).insertionSort (· ≤ ·)

/-- Target selection of the reassignment phase: scan the clusters in list
order, skipping empty ones, keeping the first strict maximum of
correlation-to-root among clusters where the feature passes both thresholds
and its correlation-to-root exceeds current_r = 0.0 (the pooled feature's
stand-in correlation). -/
def chooseCluster (M : ℕ → ℕ → ℚ) (tr ta : ℚ) (f : ℕ)
    (clusters : List Cluster) : Option ℕ :=
  (List.range clusters.length).foldl
    (fun best idx =>
      let cl := clusters.getD idx ⟨[], 0⟩
      if cl.features.length = 0 then best
      else
        let potential := M f cl.root
        let curBest : ℚ := match best with
          | none => -1
          | some j => M f (clusters.getD j ⟨[], 0⟩).root
        if potential > curBest ∧ potential > 0 ∧ potential ≥ tr ∧
            memberMean M f cl.features ≥ ta then some idx
        else best)
    none

/-- Append feature f to the cluster at position idx (the in-place
clusters[best_cl]['features'].append(f) of the source). -/
def appendAt (clusters : List Cluster) (idx f : ℕ) : List Cluster :=
  match clusters.get? idx with
  | none => clusters
  | some cl => clusters.set idx ⟨cl.features ++ [f], cl.root⟩

/-- Reassignment phase: walk the snapshot of the unclaimed list; a feature
with a qualifying target cluster is appended there (visible to the mean
tests of later features), removed from the unclaimed list, and counted as
moved. -/
def reassignPhase (M : ℕ → ℕ → ℚ) (tr ta : ℚ) :
    List ℕ → List Cluster × List ℕ × ℕ → List Cluster × List ℕ × ℕ
  | [], st => st
  | f :: rest, (clusters, avail, moved) =>
    match chooseCluster M tr ta f clusters with
    | none => reassignPhase M tr ta rest (clusters, avail, moved)
    | some idx =>
      reassignPhase M tr ta rest
        (appendAt clusters idx f, avail.filter (fun x => x ≠ f), moved + 1)

/-- State threaded through the outer iteration loop, instrumented with the
iteration count and the per-iteration weeded-feature log. -/
structure LoopState where
  avail : List ℕ
  clusters : List Cluster
  iterCount : ℕ
  weedLog : List (List ℕ)
deriving DecidableEq, Repr

/-- One outer iteration: seeding, weeding, pool update, reassignment.
Returns the new state and the moved count of the iteration. -/
def outerIter (M : ℕ → ℕ → ℚ) (n : ℕ) (p : AssocParams) (st : LoopState) :
    LoopState × ℕ :=
  let s1 := seedLoop M n p.threshold_root p.threshold_avg
    st.avail.length st.avail st.clusters
  let w := weedPhase M p.threshold_root s1.2
  let avail2 := listUnion s1.1 w.2
  let r := reassignPhase M p.threshold_root p.threshold_avg
    avail2 (w.1, avail2, 0)
  (⟨r.2.1, r.1, st.iterCount + 1, st.weedLog ++ [w.2]⟩, r.2.2)

/-- The outer loop `while available and iter_count < max_iters`, with the
convergence break `moved < convergence_epsilon * num_features`.  The fuel is
the number of iterations the guard still allows, so the initial fuel
max_iters.toNat (0 for negative max_iters) models the guard exactly. -/
def outerLoop (M : ℕ → ℕ → ℚ) (n : ℕ) (p : AssocParams) :
    ℕ → LoopState → LoopState
  | 0, st => st
  | fuel + 1, st =>
    if st.avail = [] then st
    else
      let r := outerIter M n p st
      if (r.2 : ℚ) < p.convergence_epsilon * n then r.1
      else outerLoop M n p fuel r.1

/-- Mean of a rational list as numpy computes it: NaN on an empty array. -/
def meanRV (l : List ℚ) : RVal :=
  if l.length = 0 then RVal.nan else RVal.q (l.sum / l.length)

/-- Features outside the cluster (the boolean mask over the matrix index). -/
def nonMembers (n : ℕ) (feats : List ℕ) : List ℕ :=
  (List.range n).filter (fun j => !(feats.contains j))

/-- Postprocessing of one cluster: singletons get internal 1.0 and the raw
(unguarded) row mean over non-members; larger clusters get the mean of the
upper-triangle internal pairs (0.0 when there are none) and the non-member
mean with NaN replaced by 0.0. -/
def finalizeCluster (M : ℕ → ℕ → ℚ) (n : ℕ) (cl : Cluster) : FinalCluster :=
  let feats := cl.features
  if feats.length = 1 then
    { features := feats, root := cl.root, internal_avg_r := 1,
      external_avg_r := meanRV ((nonMembers n feats).map (M (feats.headD 0))) }
  else
    let internalRs := feats.flatMap
      (fun i => feats.filterMap (fun j => if i < j then some (M i j) else none))
    let internalAvg := if internalRs.length = 0 then 0 else
      internalRs.sum / internalRs.length
    let extVals := feats.flatMap (fun i => (nonMembers n feats).map (M i))
    let extAvg := match meanRV extVals with
      | RVal.nan => RVal.q 0
      | v => v
    { features := feats, root := cl.root, internal_avg_r := internalAvg,
      external_avg_r := extAvg }

/-- Final ordering: stable sort by descending size, then descending
internal average (the ascending order of the key (-size, -internal)). -/
def clusterLE (c d : FinalCluster) : Prop :=
  d.features.length < c.features.length ∨
    (d.features.length = c.features.length ∧ d.internal_avg_r ≤ c.internal_avg_r)

instance : DecidableRel clusterLE := fun _ _ => instDecidableOr

/-- Postprocessing: leftover unclaimed features become singleton clusters,
every cluster gets its averages, the list is sorted by (size desc,
internal_avg_r desc) stably, and empty clusters are dropped. -/
def postProcess (M : ℕ → ℕ → ℚ) (n : ℕ) (avail : List ℕ)
    (clusters : List Cluster) : List FinalCluster :=
  let withSingles := clusters ++ avail.map (fun f => Cluster.mk [f] f)
  let fin := withSingles.map (finalizeCluster M n)
  (fin.insertionSort clusterLE).filter (fun c => !(c.features.isEmpty))

/-- Result of a build_associations run, instrumented with the iteration
count and the weeding log. -/
structure BuildResult where
  clusters : List FinalCluster
  iterCount : ℕ
  weedLog : List (List ℕ)
deriving DecidableEq, Repr

/-- Embedding of associations.build_associations over the fields it reads
(feature count, pair list, correlation list).  Fewer than 2 features or an
empty pair list return the empty result before any clustering work. -/
def buildCore (n : ℕ) (pairs : List TColumnPair) (corr : List RVal)
    (p : AssocParams) : BuildResult :=
  if n < 2 ∨ pairs.length = 0 then ⟨[], 0, []⟩
  else
    let M := corrMatrix pairs corr
    let st := outerLoop M n p p.max_iters.toNat ⟨List.range n, [], 0, []⟩
    ⟨postProcess M n st.avail st.clusters, st.iterCount, st.weedLog⟩

/-- build_associations on a pair store: the returned cluster list. -/
def build_associations (s : TStatCorr) (p : AssocParams) : List FinalCluster :=
  (buildCore s.column_names.length s.pairs s.corr p).clusters

/-- The instrumented run of build_associations (same computation, exposing
the iteration count and the weeding log). -/
def build_associationsRun (s : TStatCorr) (p : AssocParams) : BuildResult :=
  buildCore s.column_names.length s.pairs s.corr p

/-! ## Claim C5: rank_array assigns midranks over tolerance groups. -/

/-- Spec-side reading of the rank assignment: the chunk occupying 1-based
ranks off+1 .. off+len gives each member the average of those ranks. -/
def chunkAvgRanks (off : ℕ) : List (List ℚ) → List ℚ
  | [] => []
  | c :: cs =>
    c.map (fun _ => (∑ r ∈ Finset.Icc (off + 1) (off + c.length), (r : ℚ)) / c.length)
      ++ chunkAvgRanks (off + c.length) cs

lemma gauss_Icc_sum (a len : ℕ) :
    (∑ r ∈ Finset.Icc (a + 1) (a + len), (r : ℚ)) = len * (2 * a + len + 1) / 2 := by
  induction len with
  | zero => simp
  | succ m ih =>
    have h : a + 1 ≤ a + m + 1 := by omega
    have : a + (m + 1) = (a + m) + 1 := by omega
    rw [this, Finset.sum_Icc_succ_top h, ih]
    push_cast
    ring

lemma chunkRanks_eq_avg (cs : List (List ℚ)) :
    ∀ off, chunkRanks off cs = chunkAvgRanks off cs := by
  induction cs with
  | nil => intro off; rfl
  | cons c rest ih =>
    intro off
    simp only [chunkRanks, chunkAvgRanks, ih]
    congr 1
    rcases c with _ | ⟨x, t⟩
    · simp
    · apply List.map_congr_left
      intro y _
      rw [gauss_Icc_sum off (x :: t).length]
      have hlen : (0 : ℚ) < (x :: t).length := by
        exact_mod_cast Nat.succ_pos t.length
      have hn : ((off + (x :: t).length - 1 : ℕ) : ℚ)
          = (off : ℚ) + (x :: t).length - 1 := by
        have : 1 ≤ (x :: t).length := by simp
        push_cast [Nat.cast_sub (by omega : 1 ≤ off + (x :: t).length)]
        ring
      rw [hn]
      field_simp
      ring

/-- Claim C5: rank_array realizes ranks 1..N with average-rank (midrank)
handling of tolerance groups: its output has one rank per input value, the
closed-form rank of each tolerance chunk is exactly the average of the
1-based ranks the chunk jointly occupies, and rank_array [1,1,1,2] =
[2,2,2,4]. -/
theorem rank_array_midrank_law :
    rank_array [1, 1, 1, 2] = [2, 2, 2, 4] ∧
    (∀ v : List ℚ, (rank_array v).length = v.length) ∧
    (∀ (off : ℕ) (cs : List (List ℚ)), chunkRanks off cs = chunkAvgRanks off cs) := by
  refine ⟨?_, ?_, ?_⟩
  · norm_num [rank_array, argsortQ, chainChunks, chunkRanks, rankTol,
      List.insertionSort, List.orderedInsert, List.range_succ, List.indexOf,
      List.findIdx_cons, List.findIdx_nil, List.getElem?_cons, List.getD, cond_eq_if]
  · intro v
    simp [rank_array]
  · intro off cs
    exact chunkRanks_eq_avg cs off

/-! ## Claim C4: the join_percent case analysis. -/

lemma filter_contains_length_eq_inter_card (l1 l2 : List ℕ) (h : l1.Nodup) :
    (l1.filter (fun x => l2.contains x)).length = (l1.toFinset ∩ l2.toFinset).card := by
  have hf : (l1.filter (fun x => l2.contains x)).Nodup := h.filter _
  rw [← List.toFinset_card_of_nodup hf]
  congr 1
  ext x
  simp [List.mem_filter]

lemma argsortRV_perm_range (vals : List RVal) :
    (argsortRV vals).Perm (List.range vals.length) :=
  List.perm_insertionSort _ _

lemma argsortRV_nodup (vals : List RVal) : (argsortRV vals).Nodup :=
  (argsortRV_perm_range vals).nodup_iff.mpr (List.nodup_range _)

/-- Claim C4: join_percent returns 0.0 exactly when num_records < 2,
percent is outside (0, 100], or cnt_sel = floor(num_records * percent / 100)
is 0; otherwise it returns cnt_11 * 100 / (2 * cnt_sel - cnt_11) where
cnt_11 is the cardinality of the intersection of the two top index sets
(the last cnt_sel positions of each feature's ascending argsort), with 0
for a zero denominator. -/
theorem join_percent_case_law (gd : ℕ → ℕ → RVal) (a b n : ℕ) (pc : ℚ) :
    join_percent gd a b n pc =
      (if n < 2 ∨ pc ≤ 0 ∨ 100 < pc ∨ (⌊((n : ℚ) * pc) / 100⌋).toNat = 0 then 0
       else
         let cntSel := (⌊((n : ℚ) * pc) / 100⌋).toNat
         let topA := (argsortRV ((List.range n).map (gd a))).drop (n - cntSel)
         let topB := (argsortRV ((List.range n).map (gd b))).drop (n - cntSel)
         let cnt11 := (topA.toFinset ∩ topB.toFinset).card
         if (2 * (cntSel : ℤ) - (cnt11 : ℤ)) = 0 then 0
         else (cnt11 : ℚ) * 100 / (((2 * (cntSel : ℤ) - (cnt11 : ℤ)) : ℤ) : ℚ)) := by
  have hnodupA : ((argsortRV ((List.range n).map (gd a))).drop
      (n - (⌊((n : ℚ) * pc) / 100⌋).toNat)).Nodup :=
    (List.drop_sublist _ _).nodup (argsortRV_nodup _)
  unfold join_percent
  by_cases h1 : n < 2 ∨ pc ≤ 0 ∨ 100 < pc
  · rw [if_pos h1, if_pos (by tauto)]
  · rw [if_neg h1]
    by_cases h2 : (⌊((n : ℚ) * pc) / 100⌋).toNat = 0
    · rw [if_pos h2, if_pos (by tauto)]
    · rw [if_neg h2,
        if_neg (show ¬(n < 2 ∨ pc ≤ 0 ∨ 100 < pc ∨ (⌊((n : ℚ) * pc) / 100⌋).toNat = 0)
          from by tauto)]
      simp only []
      rw [filter_contains_length_eq_inter_card _ _ hnodupA]

/-! ## Claim C9: degenerate stores return an empty cluster list at once. -/

/-- Claim C9: with fewer than 2 features or zero registered pairs,
build_associations returns the empty cluster list as a normal value and the
outer clustering loop is never entered (zero iterations). -/
theorem build_associations_empty_input (s : TStatCorr) (p : AssocParams)
    (h : s.column_names.length < 2 ∨ s.pairs.length = 0) :
    build_associations s p = [] ∧ (build_associationsRun s p).iterCount = 0 := by
  constructor
  · unfold build_associations buildCore
    rw [if_pos h]
  · unfold build_associationsRun buildCore
    rw [if_pos h]

/-- Store with a single feature and no pairs. -/
def storeOneFeature : TStatCorr :=
  ⟨["a"], [], [], [], [], [], [], [], []⟩

/-- An arbitrary concrete configuration. -/
def paramsDefault : AssocParams :=
  ⟨4/5, 3/10, 100, 1/10⟩

theorem build_associations_empty_input_witness :
    build_associations storeOneFeature paramsDefault = [] ∧
      (build_associationsRun storeOneFeature paramsDefault).iterCount = 0 :=
  build_associations_empty_input storeOneFeature paramsDefault
    (Or.inl (by norm_num [storeOneFeature]))

/-! ## Claim C7: build_associations is a function of the store's feature
names, pair list and correlation list only (hence deterministic across
runs). -/

/-- Claim C7: two stores agreeing on column_names, pairs and corr (whatever
their other fields hold) produce identical ordered cluster lists under the
same configuration; in particular repeated runs on the same store agree. -/
theorem build_associations_deterministic (s1 s2 : TStatCorr) (p : AssocParams)
    (hn : s1.column_names = s2.column_names) (hp : s1.pairs = s2.pairs)
    (hc : s1.corr = s2.corr) :
    build_associations s1 p = build_associations s2 p := by
  unfold build_associations
  rw [hn, hp, hc]

/-- Two stores with the same names, pairs and correlations but different
dist10/rr payloads. -/
def storeDetA : TStatCorr :=
  ⟨["a", "b"], [⟨0, 1⟩], ["a _ b"], [RVal.q (9/10)],
    [RVal.q (1/2)], [RVal.q (1/4)], [], [], []⟩

def storeDetB : TStatCorr :=
  ⟨["a", "b"], [⟨0, 1⟩], ["a _ b"], [RVal.q (9/10)],
    [RVal.nan], [RVal.q (3/4)], [], [], []⟩

theorem build_associations_deterministic_witness :
    build_associations storeDetA paramsDefault
      = build_associations storeDetB paramsDefault :=
  build_associations_deterministic storeDetA storeDetB paramsDefault rfl rfl rfl

/-! ## Claim C2: configuration validation in build_associations. -/

/-- Store with two features and one strong pair. -/
def storeNegIters : TStatCorr :=
  ⟨["a", "b"], [⟨0, 1⟩], ["a _ b"], [RVal.q (9/10)], [RVal.q 0], [RVal.q 0],
    [], [], []⟩

/-- Out-of-range configuration: negative max_iters. -/
def paramsNegIters : AssocParams := ⟨4/5, 3/10, -1, 1/10⟩

/-- Counterexample to claim C2: build_associations performs no configuration
validation.  Handed a negative max_iters it does not fail; it silently skips
the clustering loop and returns a normal cluster list (every feature as a
singleton), so an out-of-range configuration is not rejected eagerly or
otherwise. -/
theorem build_associations_accepts_negative_max_iters :
    build_associations storeNegIters paramsNegIters =
      [⟨[0], 0, 1, RVal.q (9/10)⟩, ⟨[1], 1, 1, RVal.q (9/10)⟩] := by
  norm_num [build_associations, buildCore, storeNegIters, paramsNegIters, outerLoop,
    postProcess, finalizeCluster, meanRV, nonMembers, clusterLE, corrMatrix,
    corrMatrixBase, matUpd, clampCorr, TStatCorr.getCorrAt, List.insertionSort,
    List.orderedInsert, List.range_succ]

lemma insertionSort_eq_self_of_total {α : Type} (r : α → α → Prop)
    [DecidableRel r] :
    ∀ l : List α, (∀ a ∈ l, ∀ b ∈ l, r a b) → l.insertionSort r = l := by
  intro l
  induction l with
  | nil => intro _; rfl
  | cons a t ih =>
    intro h
    have ht : t.insertionSort r = t :=
      ih (fun x hx y hy =>
        h x (List.mem_cons_of_mem _ hx) y (List.mem_cons_of_mem _ hy))
    rw [List.insertionSort, ht]
    cases t with
    | nil => rfl
    | cons b t2 =>
      rw [List.orderedInsert,
        if_pos (h a (List.mem_cons_self a _) b
          (List.mem_cons_of_mem _ (List.mem_cons_self b _)))]

/-- Amended claim C2: build_associations performs no configuration
validation.  With any nonpositive max_iters (on a store with at least 2
features and a registered pair) the clustering loop body never runs and the
function silently returns every feature as its own singleton cluster
instead of failing. -/
theorem build_associations_no_validation (s : TStatCorr) (p : AssocParams)
    (hm : p.max_iters ≤ 0) (hn : 2 ≤ s.column_names.length)
    (hc : s.pairs.length ≠ 0) :
    (build_associations s p).map FinalCluster.features
      = (List.range s.column_names.length).map (fun f => [f]) := by
  have hguard : ¬(s.column_names.length < 2 ∨ s.pairs.length = 0) := by
    push_neg
    exact ⟨by omega, hc⟩
  have hfuel : p.max_iters.toNat = 0 := Int.toNat_of_nonpos hm
  unfold build_associations buildCore
  rw [if_neg hguard, hfuel]
  simp only [outerLoop]
  unfold postProcess
  simp only [List.nil_append, List.map_map]
  have hform : ∀ f : ℕ,
      (finalizeCluster (corrMatrix s.pairs s.corr) s.column_names.length ∘
        fun f => Cluster.mk [f] f) f
        = ⟨[f], f, 1, meanRV ((nonMembers s.column_names.length [f]).map
            ((corrMatrix s.pairs s.corr) f))⟩ := by
    intro f
    simp [finalizeCluster]
  have hsorted :
      ((List.range s.column_names.length).map
        (finalizeCluster (corrMatrix s.pairs s.corr) s.column_names.length ∘
          fun f => Cluster.mk [f] f)).insertionSort clusterLE
      = (List.range s.column_names.length).map
        (finalizeCluster (corrMatrix s.pairs s.corr) s.column_names.length ∘
          fun f => Cluster.mk [f] f) := by
    apply insertionSort_eq_self_of_total
    intro a ha b hb
    obtain ⟨fa, _, rfl⟩ := List.mem_map.mp ha
    obtain ⟨fb, _, rfl⟩ := List.mem_map.mp hb
    rw [hform fa, hform fb]
    right
    exact ⟨rfl, le_refl _⟩
  rw [hsorted, List.filter_eq_self.mpr ?keep]
  case keep =>
    intro a ha
    obtain ⟨fa, _, rfl⟩ := List.mem_map.mp ha
    rw [hform fa]
    simp
  rw [List.map_map]
  apply List.map_congr_left
  intro f _
  have : (FinalCluster.features ∘
      finalizeCluster (corrMatrix s.pairs s.corr) s.column_names.length ∘
        fun f => Cluster.mk [f] f) f
      = FinalCluster.features ((finalizeCluster (corrMatrix s.pairs s.corr)
          s.column_names.length ∘ fun f => Cluster.mk [f] f) f) := rfl
  rw [this, hform f]

theorem build_associations_no_validation_witness :
    (build_associations storeNegIters paramsNegIters).map FinalCluster.features
      = (List.range 2).map (fun f => [f]) :=
  build_associations_no_validation storeNegIters paramsNegIters
    (by norm_num [paramsNegIters]) (by norm_num [storeNegIters])
    (by norm_num [storeNegIters])

/-! ## Claim C1: the RR sentinel and collection rule of
calculate_rr_for_pair. -/

/-- The third features C that calculate_rr_for_pair actually collects for
the endpoints (colA, colB): C differs from both endpoints and both pairs
(colA, C) and (colB, C) are registered.  Validity of the stored
correlations is not consulted. -/
def rrCommon (s : TStatCorr) (colA colB : ℕ) : List ℕ :=
  (List.range s.column_names.length).filter
    (fun i => decide (¬(i = colA ∨ i = colB) ∧
      ¬(s.get_pair_index colA i = -1 ∨ s.get_pair_index colB i = -1)))

lemma rrVectors_foldl (s : TStatCorr) (colA colB : ℕ) (l : List ℕ) :
    ∀ accA accB : List RVal,
      (l.foldl
        (fun acc i =>
          if i = colA ∨ i = colB then acc
          else
            if s.get_pair_index colA i = -1 ∨ s.get_pair_index colB i = -1 then acc
            else (acc.1 ++ [s.get_corr (s.get_pair_index colA i)],
              acc.2 ++ [s.get_corr (s.get_pair_index colB i)]))
        (accA, accB))
      = (accA ++ (l.filter
            (fun i => decide (¬(i = colA ∨ i = colB) ∧
              ¬(s.get_pair_index colA i = -1 ∨ s.get_pair_index colB i = -1)))).map
          (fun i => s.get_corr (s.get_pair_index colA i)),
         accB ++ (l.filter
            (fun i => decide (¬(i = colA ∨ i = colB) ∧
              ¬(s.get_pair_index colA i = -1 ∨ s.get_pair_index colB i = -1)))).map
          (fun i => s.get_corr (s.get_pair_index colB i))) := by
  induction l with
  | nil => intro accA accB; simp
  | cons i t ih =>
    intro accA accB
    by_cases h1 : i = colA ∨ i = colB
    · simp only [List.foldl_cons, if_pos h1, List.filter_cons]
      rw [ih accA accB]
      simp [h1]
    · by_cases h2 : s.get_pair_index colA i = -1 ∨ s.get_pair_index colB i = -1
      · simp only [List.foldl_cons, if_neg h1, if_pos h2, List.filter_cons]
        rw [ih accA accB]
        simp [h1, h2]
      · simp only [List.foldl_cons, if_neg h1, if_neg h2, List.filter_cons]
        rw [ih (accA ++ [s.get_corr (s.get_pair_index colA i)])
          (accB ++ [s.get_corr (s.get_pair_index colB i)])]
        simp [h1, h2]

lemma rrVectors_eq_maps (s : TStatCorr) (colA colB : ℕ) :
    rrVectors s colA colB
      = ((rrCommon s colA colB).map (fun i => s.get_corr (s.get_pair_index colA i)),
         (rrCommon s colA colB).map (fun i => s.get_corr (s.get_pair_index colB i))) := by
  unfold rrVectors rrCommon
  rw [rrVectors_foldl]
  simp

/-- Amended claim C1: for every registered pair, calculate_rr_for_pair
produces the sentinel 0.0 (and not NaN) exactly when the store has fewer
than 3 features or fewer than 2 common features C survive the collection —
where C is skipped only when one of the pairs (A, C), (B, C) is
unregistered (an invalid stored correlation is still collected, unlike the
claim's reading); otherwise the result is the Spearman correlation
(average-rank ties) of the two collected correlation vectors, which is NaN
whenever a collected correlation is NaN or a rank vector is constant. -/
theorem calculate_rr_sentinel_law (s : TStatCorr) (idx : ℕ)
    (h : idx < s.pairs.length) :
    calculate_rr_for_pair s idx =
      (if s.column_names.length < 3 ∨
          (rrCommon s (s.pairs.get ⟨idx, h⟩).col1 (s.pairs.get ⟨idx, h⟩).col2).length < 2
       then SpearRes.val 0 1
       else spearman
         ((rrCommon s (s.pairs.get ⟨idx, h⟩).col1 (s.pairs.get ⟨idx, h⟩).col2).map
           (fun i => s.get_corr (s.get_pair_index (s.pairs.get ⟨idx, h⟩).col1 i)))
         ((rrCommon s (s.pairs.get ⟨idx, h⟩).col1 (s.pairs.get ⟨idx, h⟩).col2).map
           (fun i => s.get_corr (s.get_pair_index (s.pairs.get ⟨idx, h⟩).col2 i)))) := by
  unfold calculate_rr_for_pair
  rw [List.get?_eq_get h]
  dsimp only
  by_cases h3 : s.column_names.length < 3
  · rw [if_pos (Or.inl h3)]
    simp [h3]
  · rw [if_neg h3, rrVectors_eq_maps]
    dsimp only
    simp only [List.length_map]
    by_cases h2 : (rrCommon s (s.pairs.get ⟨idx, h⟩).col1 (s.pairs.get ⟨idx, h⟩).col2).length < 2
    · rw [if_pos h2, if_pos (Or.inr h2)]
    · rw [if_neg h2, if_neg (by tauto)]

/-- Four-feature store where pair (a, c) is registered but carries an
invalid (NaN) correlation; pairs (a, d), (b, c), (b, d) carry valid ones. -/
def storeRR : TStatCorr :=
  ⟨["a", "b", "c", "d"],
    [⟨0, 1⟩, ⟨0, 2⟩, ⟨1, 2⟩, ⟨0, 3⟩, ⟨1, 3⟩],
    ["a _ b", "a _ c", "b _ c", "a _ d", "b _ d"],
    [RVal.q 0, RVal.nan, RVal.q (1/2), RVal.q (1/10), RVal.q (1/5)],
    [], [], [], [], []⟩

/-- Counterexample to claim C1 as stated: for the pair (a, b) of storeRR,
the claim's collection rule skips feature c (its correlation with a is
invalid), leaving a single common feature, so the claim demands the
sentinel 0.0; the code does not skip invalid correlations, collects both c
and d, and hands a NaN-containing vector to the Spearman correlation, so
the pair's rr becomes NaN — which the claim says never happens here. -/
theorem calculate_rr_keeps_invalid_corr :
    calculate_rr_for_pair storeRR 0 = SpearRes.nan ∧
      calculate_rr_for_pairSpec storeRR 0 = SpearRes.val 0 1 := by
  constructor <;>
    norm_num [calculate_rr_for_pair, calculate_rr_for_pairSpec, storeRR, rrVectors,
      rrVectorsSpec, TStatCorr.get_pair_index, TStatCorr.find_pair_index,
      TStatCorr.get_corr, TStatCorr.getCorrAt, List.findIdx?_cons, List.findIdx?_nil,
      List.range_succ, spearman, RVal.isNaN, Int.toNat,
      List.getElem_cons_zero, List.getElem_cons_succ]

theorem calculate_rr_sentinel_law_witness :
    calculate_rr_for_pair storeDetA 0 = SpearRes.val 0 1 := by
  rw [calculate_rr_sentinel_law storeDetA 0 (by norm_num [storeDetA])]
  norm_num [storeDetA]

/-! ## Claim C8: identical feature vectors give full overlap and perfect
correlation. -/

lemma countP_or_disjoint {α : Type} (p q : α → Bool)
    (h : ∀ a, ¬(p a = true ∧ q a = true)) :
    ∀ l : List α, l.countP (fun a => p a || q a) = l.countP p + l.countP q := by
  intro l
  induction l with
  | nil => simp
  | cons a t ih =>
    simp only [List.countP_cons, ih]
    by_cases hp : p a = true
    · have hq : ¬q a = true := fun hq => h a ⟨hp, hq⟩
      simp [hp, hq]
      omega
    · by_cases hq : q a = true
      · simp [hp, hq]
        omega
      · simp [hp, hq]

lemma RVal.lt_trans_of (x y z : RVal) (h1 : RVal.lt x y = true)
    (h2 : RVal.lt y z = true) : RVal.lt x z = true := by
  cases x <;> cases y <;> cases z <;> simp_all [RVal.lt]
  linarith

lemma RVal.lt_irrefl_of (x : RVal) : ¬RVal.lt x x = true := by
  cases x <;> simp [RVal.lt]

/-- Strict monotonicity of the average rank: a strictly smaller value
receives a strictly smaller rank (the larger value must occur in the
list). -/
lemma rankVal_strict_mono (v : List RVal) (x y : RVal) (hy : y ∈ v)
    (hxy : RVal.lt x y = true) : rankVal v x < rankVal v y := by
  have hsub : countLT v x + countEQ v x ≤ countLT v y := by
    have hor : v.countP (fun z => RVal.lt z x || decide (z = x))
        = v.countP (fun z => RVal.lt z x) + v.countP (fun z => decide (z = x)) := by
      apply countP_or_disjoint
      intro a ha
      have hax : a = x := of_decide_eq_true ha.2
      exact RVal.lt_irrefl_of x (hax ▸ ha.1)
    have hmono : v.countP (fun z => RVal.lt z x || decide (z = x))
        ≤ v.countP (fun z => RVal.lt z y) := by
      apply List.countP_mono_left
      intro z _ hz
      rcases Bool.or_eq_true_iff.mp hz with h | h
      · exact RVal.lt_trans_of z x y h hxy
      · have : z = x := of_decide_eq_true h
        exact this ▸ hxy
    unfold countLT countEQ
    rw [← List.countP_eq_length_filter, ← List.countP_eq_length_filter,
      ← List.countP_eq_length_filter]
    omega
  have hy1 : 1 ≤ countEQ v y := by
    unfold countEQ
    have : y ∈ v.filter (fun z => decide (z = y)) :=
      List.mem_filter.mpr ⟨hy, by simp⟩
    exact List.length_pos.mpr (fun he => by simp [he] at this)
  unfold rankVal
  have h1 : ((countLT v x : ℚ) + ((countEQ v x : ℚ) + 1) / 2)
      < (countLT v x : ℚ) + (countEQ v x : ℚ) + 1 := by
    have : ((countEQ v x : ℚ) + 1) / 2 < (countEQ v x : ℚ) + 1 := by
      have hq : (0 : ℚ) ≤ (countEQ v x : ℚ) := by positivity
      linarith
    linarith
  have h2 : ((countLT v x : ℚ) + (countEQ v x : ℚ) + 1)
      ≤ (countLT v y : ℚ) + ((countEQ v y : ℚ) + 1) / 2 := by
    have hc : (countLT v x : ℚ) + (countEQ v x : ℚ) ≤ (countLT v y : ℚ) := by
      exact_mod_cast hsub
    have he : (1 : ℚ) ≤ ((countEQ v y : ℚ) + 1) / 2 := by
      have : (1 : ℚ) ≤ (countEQ v y : ℚ) := by exact_mod_cast hy1
      linarith
    linarith
  linarith

lemma list_sum_zero_of_nonneg {l : List ℚ} (h : ∀ x ∈ l, 0 ≤ x)
    (hs : l.sum = 0) : ∀ x ∈ l, x = 0 := by
  induction l with
  | nil => simp
  | cons a t ih =>
    have ha : 0 ≤ a := h a (List.mem_cons_self a t)
    have ht : ∀ x ∈ t, 0 ≤ x := fun x hx => h x (List.mem_cons_of_mem _ hx)
    have hts : 0 ≤ t.sum := List.sum_nonneg ht
    rw [List.sum_cons] at hs
    have ha0 : a = 0 := by linarith
    have hts0 : t.sum = 0 := by linarith
    intro x hx
    rcases List.mem_cons.mp hx with rfl | hx
    · exact ha0
    · exact ih ht hts0 x hx

lemma devSq_zero_all_mean {l : List ℚ} (h : devSq l = 0) :
    ∀ r ∈ l, r = meanQ l := by
  intro r hr
  have hsq : ((r - meanQ l) ^ 2) = 0 := by
    apply list_sum_zero_of_nonneg (l := l.map (fun r => (r - meanQ l) ^ 2))
    · intro x hx
      obtain ⟨y, _, rfl⟩ := List.mem_map.mp hx
      positivity
    · exact h
    · exact List.mem_map_of_mem _ hr
  have : r - meanQ l = 0 := by
    exact pow_eq_zero_iff (n := 2) (by norm_num) |>.mp hsq
  linarith

lemma zip_self_eq_map {α : Type} (l : List α) :
    l.zip l = l.map (fun x => (x, x)) := by
  induction l with
  | nil => rfl
  | cons a t ih => simp [List.zip_cons_cons, ih]

lemma devProd_self (l : List ℚ) : devProd l l = devSq l := by
  unfold devProd devSq
  rw [zip_self_eq_map, List.map_map]
  congr 1
  apply List.map_congr_left
  intro x _
  simp only [Function.comp_apply]
  ring

/-- The Spearman correlation of any NaN-free, non-constant vector with
itself is exactly 1. -/
lemma spearman_self_isOne (v : List RVal) (h2 : 2 ≤ v.length)
    (hnn : v.any RVal.isNaN = false)
    (hne : ∃ x ∈ v, ∃ y ∈ v, x ≠ y) :
    (spearman v v).IsOne := by
  unfold spearman
  rw [if_neg (by omega), hnn]
  simp only [Bool.or_self, Bool.false_eq_true, if_false]
  have hsa : devSq (avgRanks v) ≠ 0 := by
    intro h0
    obtain ⟨x, hx, y, hy, hxy⟩ := hne
    have hxq : ∃ a, x = RVal.q a := by
      cases x with
      | nan =>
        exact absurd rfl (List.any_eq_false.mp hnn RVal.nan hx)
      | q a => exact ⟨a, rfl⟩
    have hyq : ∃ b, y = RVal.q b := by
      cases y with
      | nan =>
        exact absurd rfl (List.any_eq_false.mp hnn RVal.nan hy)
      | q b => exact ⟨b, rfl⟩
    obtain ⟨a, rfl⟩ := hxq
    obtain ⟨b, rfl⟩ := hyq
    have hab : a ≠ b := fun he => hxy (he ▸ rfl)
    have hlt : RVal.lt (RVal.q a) (RVal.q b) = true ∨
        RVal.lt (RVal.q b) (RVal.q a) = true := by
      rcases lt_or_gt_of_ne hab with h | h
      · left; simpa [RVal.lt] using h
      · right; simpa [RVal.lt] using h
    have hrx := devSq_zero_all_mean h0 (rankVal v (RVal.q a))
      (by unfold avgRanks; exact List.mem_map_of_mem _ hx)
    have hry := devSq_zero_all_mean h0 (rankVal v (RVal.q b))
      (by unfold avgRanks; exact List.mem_map_of_mem _ hy)
    rcases hlt with h | h
    · have := rankVal_strict_mono v (RVal.q a) (RVal.q b) hy h
      rw [hrx, hry] at this
      exact lt_irrefl _ this
    · have := rankVal_strict_mono v (RVal.q b) (RVal.q a) hx h
      rw [hrx, hry] at this
      exact lt_irrefl _ this
  rw [if_neg (by tauto)]
  have hnonneg : 0 ≤ devSq (avgRanks v) := by
    apply List.sum_nonneg
    intro x hx
    obtain ⟨y, _, rfl⟩ := List.mem_map.mp hx
    positivity
  constructor
  · rw [devProd_self]
    exact lt_of_le_of_ne hnonneg (Ne.symm hsa)
  · rw [devProd_self]
    ring

/-- Amended claim C8: for elementwise-identical feature vectors with at
least 2 records, join_percent is 100.0 at every percent in (0, 100] whose
selection count is at least 1 — unconditionally, NaN entries and constant
vectors included; and the Spearman correlation (as computed by the
pipeline, log scale off) is exactly 1 provided the common vector has no NaN
entry and at least two distinct values.  Without those two provisos the
correlation is NaN instead (see the counterexample). -/
theorem identical_vectors_overlap_and_corr (gd : ℕ → ℕ → RVal) (a b n : ℕ)
    (pc : ℚ)
    (hid : ∀ r, r < n → gd b r = gd a r)
    (h2 : 2 ≤ n)
    (hpc0 : 0 < pc) (hpc100 : pc ≤ 100)
    (hsel : 1 ≤ (⌊((n : ℚ) * pc) / 100⌋).toNat) :
    join_percent gd a b n pc = 100 ∧
      ((∀ r, r < n → (gd a r).isNaN = false) →
        (∃ r1, r1 < n ∧ ∃ r2, r2 < n ∧ gd a r1 ≠ gd a r2) →
        (spearman_corr gd a b n false).IsOne) := by
  have hvab : (List.range n).map (gd b) = (List.range n).map (gd a) := by
    apply List.map_congr_left
    intro r hr
    exact hid r (List.mem_range.mp hr)
  have hguard : ¬(n < 2 ∨ pc ≤ 0 ∨ 100 < pc) := by
    push_neg
    exact ⟨by omega, hpc0, hpc100⟩
  have hle : (⌊((n : ℚ) * pc) / 100⌋).toNat ≤ n := by
    have hd : ((n : ℚ) * pc) / 100 ≤ (n : ℚ) := by
      rw [div_le_iff₀ (by norm_num : (0 : ℚ) < 100)]
      nlinarith [Nat.cast_nonneg (α := ℚ) n]
    have hf : ⌊((n : ℚ) * pc) / 100⌋ ≤ (n : ℤ) := by
      have := Int.floor_le_floor hd
      rwa [Int.floor_natCast] at this
    omega
  constructor
  · unfold join_percent
    rw [if_neg hguard, if_neg (by omega)]
    dsimp only
    rw [hvab]
    have hTlen : ((argsortRV ((List.range n).map (gd a))).drop
        (n - (⌊((n : ℚ) * pc) / 100⌋).toNat)).length
        = (⌊((n : ℚ) * pc) / 100⌋).toNat := by
      rw [List.length_drop]
      unfold argsortRV
      rw [List.length_insertionSort, List.length_range, List.length_map,
        List.length_range]
      omega
    have hcnt : (((argsortRV ((List.range n).map (gd a))).drop
        (n - (⌊((n : ℚ) * pc) / 100⌋).toNat)).filter
          (fun x => ((argsortRV ((List.range n).map (gd a))).drop
            (n - (⌊((n : ℚ) * pc) / 100⌋).toNat)).contains x)).length
        = (⌊((n : ℚ) * pc) / 100⌋).toNat := by
      rw [List.filter_eq_self.mpr, hTlen]
      intro x hx
      exact List.elem_eq_true_of_mem hx
    rw [hcnt]
    rw [if_neg (by
      have : (1 : ℤ) ≤ ((⌊((n : ℚ) * pc) / 100⌋).toNat : ℤ) := by exact_mod_cast hsel
      omega)]
    have hc0 : ((⌊((n : ℚ) * pc) / 100⌋).toNat : ℚ) ≠ 0 := by
      have : (1 : ℚ) ≤ ((⌊((n : ℚ) * pc) / 100⌋).toNat : ℚ) := by exact_mod_cast hsel
      linarith
    push_cast
    rw [show (2 : ℚ) * ((⌊((n : ℚ) * pc) / 100⌋).toNat : ℚ)
        - ((⌊((n : ℚ) * pc) / 100⌋).toNat : ℚ)
        = ((⌊((n : ℚ) * pc) / 100⌋).toNat : ℚ) from by ring]
    rw [mul_comm, mul_div_assoc, div_self hc0, mul_one]
  · intro hnn hne
    unfold spearman_corr
    rw [if_neg (by omega)]
    dsimp only
    have hclip : ∀ v : RVal, logClip false v = v := by
      intro v
      cases v <;> simp [logClip]
    simp only [hclip]
    have hmb : (List.range n).map (fun i => gd b i) = (List.range n).map (fun i => gd a i) := hvab
    rw [hmb]
    apply spearman_self_isOne
    · rw [List.length_map, List.length_range]
      omega
    · rw [List.any_eq_false]
      intro x hx
      obtain ⟨r, hr, rfl⟩ := List.mem_map.mp hx
      simp [hnn r (List.mem_range.mp hr)]
    · obtain ⟨r1, hr1, r2, hr2, hne12⟩ := hne
      exact ⟨gd a r1, List.mem_map_of_mem _ (List.mem_range.mpr hr1),
        gd a r2, List.mem_map_of_mem _ (List.mem_range.mpr hr2), hne12⟩

/-- Constant two-record data source: both features hold the vector
[0.0, 0.0]. -/
def constGD : ℕ → ℕ → RVal := fun _ _ => RVal.q 0

/-- Counterexample to claim C8 as stated: the feature vectors of columns 0
and 1 are elementwise identical ([0.0, 0.0], N = 2), yet the Spearman
correlation is NaN (zero rank variance: scipy's constant-input case), not
the claimed 1.0. -/
theorem spearman_identical_constant_is_nan :
    spearman_corr constGD 0 1 2 false = SpearRes.nan ∧
      ¬(spearman_corr constGD 0 1 2 false).IsOne := by
  have h : spearman_corr constGD 0 1 2 false = SpearRes.nan := by
    norm_num [spearman_corr, constGD, spearman, logClip, avgRanks, rankVal,
      countLT, countEQ, devSq, meanQ, RVal.lt, RVal.isNaN, List.range_succ]
  exact ⟨h, by rw [h]; exact fun hh => hh⟩

/-- Strictly increasing two-record data source shared by both columns. -/
def rampGD : ℕ → ℕ → RVal := fun _ r => RVal.q r

theorem identical_vectors_overlap_and_corr_witness :
    join_percent rampGD 0 1 2 50 = 100 ∧
      (spearman_corr rampGD 0 1 2 false).IsOne := by
  have h := identical_vectors_overlap_and_corr rampGD 0 1 2 50
    (fun r _ => rfl) (by omega) (by norm_num) (by norm_num) (by norm_num)
  refine ⟨h.1, h.2 (fun r _ => rfl) ⟨0, by omega, 1, by omega, ?_⟩⟩
  simp [rampGD]

/-! ## Shared invariants of the clustering loop (used for claims about
convergence and weeding). -/

lemma matUpd_pair_symm {M : ℕ → ℕ → ℚ} (hsym : ∀ a b, M a b = M b a)
    (i j : ℕ) (r : ℚ) :
    ∀ a b, matUpd (matUpd M i j r) j i r a b = matUpd (matUpd M i j r) j i r b a := by
  intro a b
  unfold matUpd
  by_cases hai : a = i <;> by_cases haj : a = j <;> by_cases hbi : b = i <;>
    by_cases hbj : b = j <;> simp_all

lemma foldl_matrix_symm (step : (ℕ → ℕ → ℚ) → ℕ → (ℕ → ℕ → ℚ))
    (hstep : ∀ M i, (∀ a b, M a b = M b a) → ∀ a b, step M i a b = step M i b a)
    (l : List ℕ) :
    ∀ M0, (∀ a b, M0 a b = M0 b a) →
      ∀ a b, (l.foldl step M0) a b = (l.foldl step M0) b a := by
  induction l with
  | nil => intro M0 h a b; exact h a b
  | cons i t ih =>
    intro M0 h a b
    rw [List.foldl_cons]
    exact ih (step M0 i) (hstep M0 i h) a b

lemma corrMatrixBase_symm (pairs : List TColumnPair) (corr : List RVal) :
    ∀ a b, corrMatrixBase pairs corr a b = corrMatrixBase pairs corr b a := by
  unfold corrMatrixBase
  apply foldl_matrix_symm
  · intro M i h a b
    exact matUpd_pair_symm h _ _ _ a b
  · intro a b
    rfl

/-- The correlation matrix built by build_associations is symmetric. -/
lemma corrMatrix_symm (pairs : List TColumnPair) (corr : List RVal) :
    ∀ a b, corrMatrix pairs corr a b = corrMatrix pairs corr b a := by
  intro a b
  unfold corrMatrix
  by_cases hab : a = b
  · simp [hab]
  · rw [if_neg hab, if_neg (fun h => hab h.symm)]
    exact corrMatrixBase_symm pairs corr a b

lemma foldl_option_inv {α β : Type} (step : Option β → α → Option β)
    (l : List α) (P : β → Prop)
    (hstep : ∀ acc a, a ∈ l →
      (acc = none ∨ ∃ b, acc = some b ∧ P b) →
      (step acc a = none ∨ ∃ b, step acc a = some b ∧ P b)) :
    ∀ init, (init = none ∨ ∃ b, init = some b ∧ P b) →
      (l.foldl step init = none ∨ ∃ b, l.foldl step init = some b ∧ P b) := by
  induction l with
  | nil => intro init h; exact h
  | cons a t ih =>
    intro init h
    rw [List.foldl_cons]
    exact ih (fun acc x hx => hstep acc x (List.mem_cons_of_mem _ hx))
      (step init a) (hstep init a (List.mem_cons_self a t) h)

lemma orderedPairs_mem {l : List ℕ} {a b : ℕ} (h : (a, b) ∈ orderedPairs l) :
    a ∈ l ∧ b ∈ l ∧ a < b := by
  unfold orderedPairs at h
  rw [List.mem_flatMap] at h
  obtain ⟨x, hx, hmem⟩ := h
  rw [List.mem_filterMap] at hmem
  obtain ⟨y, hy, hxy⟩ := hmem
  by_cases hlt : x < y
  · rw [if_pos hlt] at hxy
    obtain ⟨rfl, rfl⟩ := Prod.mk.injEq .. ▸ Option.some.injEq .. ▸ hxy
    exact ⟨hx, hy, hlt⟩
  · rw [if_neg hlt] at hxy
    exact absurd hxy (Option.noConfusion)

/-- Facts about the seed-pair scan: a returned pair lies in the unclaimed
list, is ordered, and its matrix value meets the root threshold. -/
lemma findBestPair_spec (M : ℕ → ℕ → ℚ) (tr : ℚ) (avail : List ℕ) (a b : ℕ)
    (h : findBestPair M tr avail = some (a, b)) :
    a ∈ avail ∧ b ∈ avail ∧ a < b ∧ M a b ≥ tr := by
  have := foldl_option_inv
    (fun best ab =>
      let cur : ℚ := match best with
        | none => -1
        | some p => M p.1 p.2
      if M ab.1 ab.2 > cur ∧ M ab.1 ab.2 ≥ tr then some ab else best)
    (orderedPairs avail)
    (fun p => p.1 ∈ avail ∧ p.2 ∈ avail ∧ p.1 < p.2 ∧ M p.1 p.2 ≥ tr)
    (by
      intro acc ab hab hacc
      dsimp only
      split
      · right
        obtain ⟨h1, h2, h3⟩ := orderedPairs_mem (a := ab.1) (b := ab.2)
          (by simpa using hab)
        rename_i hcond
        exact ⟨ab, rfl, h1, h2, h3, hcond.2⟩
      · exact hacc)
    none (Or.inl rfl)
  unfold findBestPair at h
  rcases this with hnone | ⟨p, hp, hP⟩
  · rw [h] at hnone
    exact absurd hnone (Option.noConfusion)
  · rw [h] at hp
    obtain rfl : p = (a, b) := (Option.some.injEq ..).mp hp.symm
    exact hP

/-- A target chosen by the reassignment scan exists and meets the root
threshold. -/
lemma chooseCluster_spec (M : ℕ → ℕ → ℚ) (tr ta : ℚ) (f : ℕ)
    (clusters : List Cluster) (idx : ℕ)
    (h : chooseCluster M tr ta f clusters = some idx) :
    idx < clusters.length ∧ M f (clusters.getD idx ⟨[], 0⟩).root ≥ tr := by
  have := foldl_option_inv
    (fun best i =>
      let cl := clusters.getD i ⟨[], 0⟩
      if cl.features.length = 0 then best
      else
        let potential := M f cl.root
        let curBest : ℚ := match best with
          | none => -1
          | some j => M f (clusters.getD j ⟨[], 0⟩).root
        if potential > curBest ∧ potential > 0 ∧ potential ≥ tr ∧
            memberMean M f cl.features ≥ ta then some i
        else best)
    (List.range clusters.length)
    (fun j => j < clusters.length ∧ M f (clusters.getD j ⟨[], 0⟩).root ≥ tr)
    (by
      intro acc i hi hacc
      dsimp only
      split
      · exact hacc
      · split
        · right
          rename_i hcond
          exact ⟨i, rfl, List.mem_range.mp hi, hcond.2.2.1⟩
        · exact hacc)
    none (Or.inl rfl)
  unfold chooseCluster at h
  rcases this with hnone | ⟨p, hp, hP⟩
  · rw [h] at hnone
    exact absurd hnone (Option.noConfusion)
  · rw [h] at hp
    obtain rfl : p = idx := (Option.some.injEq ..).mp hp.symm
    exact hP

/-- Invariant of a cluster: the root is a member, and every non-root member
meets the root threshold in the matrix. -/
def ClusterInv (M : ℕ → ℕ → ℚ) (tr : ℚ) (cl : Cluster) : Prop :=
  cl.root ∈ cl.features ∧ ∀ f ∈ cl.features, f ≠ cl.root → M f cl.root ≥ tr

lemma admitLoop_mem (M : ℕ → ℕ → ℚ) (tr ta : ℚ) (root : ℕ) :
    ∀ (cands cluster : List ℕ) (x : ℕ),
      x ∈ admitLoop M tr ta root cands cluster → x ∈ cluster ∨ x ∈ cands := by
  intro cands
  induction cands with
  | nil =>
    intro cluster x hx
    exact Or.inl hx
  | cons c t ih =>
    intro cluster x hx
    rw [admitLoop] at hx
    split at hx
    · rcases ih _ _ hx with h | h
      · rcases List.mem_append.mp h with h | h
        · exact Or.inl h
        · rw [List.mem_singleton.mp h]
          exact Or.inr (List.mem_cons_self c t)
      · exact Or.inr (List.mem_cons_of_mem _ h)
    · rcases ih _ _ hx with h | h
      · exact Or.inl h
      · exact Or.inr (List.mem_cons_of_mem _ h)

lemma admitLoop_mem_of_base (M : ℕ → ℕ → ℚ) (tr ta : ℚ) (root : ℕ) :
    ∀ (cands cluster : List ℕ) (x : ℕ),
      x ∈ cluster → x ∈ admitLoop M tr ta root cands cluster := by
  intro cands
  induction cands with
  | nil =>
    intro cluster x hx
    exact hx
  | cons c t ih =>
    intro cluster x hx
    rw [admitLoop]
    split
    · exact ih _ _ (List.mem_append.mpr (Or.inl hx))
    · exact ih _ _ hx

lemma admitLoop_thresh (M : ℕ → ℕ → ℚ) (tr ta : ℚ) (root : ℕ) :
    ∀ (cands cluster : List ℕ),
      (∀ f ∈ cluster, f ≠ root → M f root ≥ tr) →
      ∀ f ∈ admitLoop M tr ta root cands cluster, f ≠ root → M f root ≥ tr := by
  intro cands
  induction cands with
  | nil =>
    intro cluster hbase f hf
    exact hbase f hf
  | cons c t ih =>
    intro cluster hbase f hf
    rw [admitLoop] at hf
    split at hf
    · refine ih _ ?_ f hf
      intro g hg hgr
      rcases List.mem_append.mp hg with h | h
      · exact hbase g h hgr
      · rename_i hcond
        rw [List.mem_singleton.mp h]
        exact hcond.1
    · exact ih _ hbase f hf

lemma weedCluster_of_inv (M : ℕ → ℕ → ℚ) (tr : ℚ) (cl : Cluster)
    (h : ClusterInv M tr cl) : weedCluster M tr cl = (cl, []) := by
  unfold weedCluster
  have hweak : cl.features.filter
      (fun f => decide (f ≠ cl.root ∧ M f cl.root < tr)) = [] := by
    rw [List.filter_eq_nil_iff]
    intro f hf
    simp only [decide_eq_true_eq, not_and, not_lt]
    intro hfr
    exact h.2 f hf hfr
  rw [hweak]
  simp

lemma weedPhase_of_inv (M : ℕ → ℕ → ℚ) (tr : ℚ) :
    ∀ clusters : List Cluster, (∀ cl ∈ clusters, ClusterInv M tr cl) →
      weedPhase M tr clusters = (clusters, []) := by
  intro clusters
  induction clusters with
  | nil => intro _; rfl
  | cons cl rest ih =>
    intro h
    rw [weedPhase, weedCluster_of_inv M tr cl (h cl (List.mem_cons_self cl rest)),
      ih (fun c hc => h c (List.mem_cons_of_mem _ hc))]
    rfl

lemma appendAt_inv (M : ℕ → ℕ → ℚ) (tr : ℚ) (clusters : List Cluster)
    (idx f : ℕ) (hinv : ∀ cl ∈ clusters, ClusterInv M tr cl)
    (hf : M f (clusters.getD idx ⟨[], 0⟩).root ≥ tr) :
    ∀ cl ∈ appendAt clusters idx f, ClusterInv M tr cl := by
  intro cl hcl
  unfold appendAt at hcl
  cases hget : clusters.get? idx with
  | none =>
    rw [hget] at hcl
    exact hinv cl hcl
  | some base =>
    rw [hget] at hcl
    have hbase : base ∈ clusters := List.get?_mem hget
    have hg2 : clusters[idx]? = some base := by
      rw [← List.get?_eq_getElem?]
      exact hget
    have hbaseD : clusters.getD idx ⟨[], 0⟩ = base := by
      simp [List.getD, hg2]
    rcases List.mem_or_eq_of_mem_set hcl with h | rfl
    · exact hinv cl h
    · constructor
      · exact List.mem_append.mpr (Or.inl (hinv base hbase).1)
      · intro g hg hgr
        rcases List.mem_append.mp hg with h | h
        · exact (hinv base hbase).2 g h hgr
        · rw [List.mem_singleton.mp h]
          rw [hbaseD] at hf
          exact hf

lemma reassignPhase_inv (M : ℕ → ℕ → ℚ) (tr ta : ℚ) :
    ∀ (snapshot : List ℕ) (clusters : List Cluster) (avail : List ℕ) (moved : ℕ),
      (∀ cl ∈ clusters, ClusterInv M tr cl) →
      ∀ cl ∈ (reassignPhase M tr ta snapshot (clusters, avail, moved)).1,
        ClusterInv M tr cl := by
  intro snapshot
  induction snapshot with
  | nil =>
    intro clusters avail moved h
    exact h
  | cons f rest ih =>
    intro clusters avail moved h
    rw [reassignPhase]
    cases hch : chooseCluster M tr ta f clusters with
    | none => exact ih clusters avail moved h
    | some idx =>
      exact ih _ _ _ (appendAt_inv M tr clusters idx f h
        (chooseCluster_spec M tr ta f clusters idx hch).2)

lemma reassignPhase_moved_le (M : ℕ → ℕ → ℚ) (tr ta : ℚ) :
    ∀ (snapshot : List ℕ) (clusters : List Cluster) (avail : List ℕ) (moved : ℕ),
      (reassignPhase M tr ta snapshot (clusters, avail, moved)).2.2
        ≤ moved + snapshot.length := by
  intro snapshot
  induction snapshot with
  | nil =>
    intro clusters avail moved
    simp [reassignPhase]
  | cons f rest ih =>
    intro clusters avail moved
    rw [reassignPhase]
    cases hch : chooseCluster M tr ta f clusters with
    | none =>
      calc (reassignPhase M tr ta rest (clusters, avail, moved)).2.2
          ≤ moved + rest.length := ih clusters avail moved
        _ ≤ moved + (f :: rest).length := by simp
    | some idx =>
      calc (reassignPhase M tr ta rest
            (appendAt clusters idx f, avail.filter (fun x => x ≠ f), moved + 1)).2.2
          ≤ (moved + 1) + rest.length := ih _ _ _
        _ ≤ moved + (f :: rest).length := by simp; omega

lemma reassignPhase_nil_clusters (M : ℕ → ℕ → ℚ) (tr ta : ℚ) :
    ∀ (snapshot : List ℕ) (avail : List ℕ) (moved : ℕ),
      reassignPhase M tr ta snapshot ([], avail, moved) = ([], avail, moved) := by
  intro snapshot
  induction snapshot with
  | nil =>
    intro avail moved
    rfl
  | cons f rest ih =>
    intro avail moved
    rw [reassignPhase]
    have hch : chooseCluster M tr ta f [] = none := rfl
    rw [hch]
    exact ih avail moved

lemma seedLoop_clusterInv (M : ℕ → ℕ → ℚ) (hsym : ∀ a b, M a b = M b a)
    (n : ℕ) (tr ta : ℚ) :
    ∀ (fuel : ℕ) (avail : List ℕ) (acc : List Cluster),
      (∀ cl ∈ acc, ClusterInv M tr cl) →
      ∀ cl ∈ (seedLoop M n tr ta fuel avail acc).2, ClusterInv M tr cl := by
  intro fuel
  induction fuel with
  | zero =>
    intro avail acc h
    exact h
  | succ fu ih =>
    intro avail acc h
    rw [seedLoop]
    cases hbp : findBestPair M tr avail with
    | none => exact h
    | some ab =>
      obtain ⟨a, b⟩ := ab
      dsimp only
      apply ih
      intro cl hcl
      rcases List.mem_append.mp hcl with h1 | h1
      · exact h cl h1
      · rw [List.mem_singleton.mp h1]
        obtain ⟨ha, hb, hab, htr⟩ := findBestPair_spec M tr avail a b hbp
        have hpt : M (if rowMean M n a > rowMean M n b then b else a)
            (if rowMean M n a > rowMean M n b then a else b) ≥ tr := by
          by_cases hr : rowMean M n a > rowMean M n b
          · rw [if_pos hr, if_pos hr, hsym b a]
            exact htr
          · rw [if_neg hr, if_neg hr]
            exact htr
        constructor
        · dsimp only
          rw [(List.perm_insertionSort _ _).mem_iff]
          exact admitLoop_mem_of_base M tr ta _ _ _ _ (List.mem_cons_self _ _)
        · intro f hf hfr
          dsimp only at hf hfr ⊢
          rw [(List.perm_insertionSort _ _).mem_iff] at hf
          refine admitLoop_thresh M tr ta _ _ _ ?_ f hf hfr
          intro g hg hgr
          rcases List.mem_cons.mp hg with rfl | hg2
          · exact absurd rfl hgr
          · rw [List.mem_singleton.mp hg2]
            exact hpt

lemma seedLoop_structure (M : ℕ → ℕ → ℚ) (n : ℕ) (tr ta : ℚ) :
    ∀ (fuel : ℕ) (avail : List ℕ) (acc : List Cluster),
      (seedLoop M n tr ta fuel avail acc).1.Sublist avail ∧
      (∀ cl ∈ (seedLoop M n tr ta fuel avail acc).2,
        cl ∈ acc ∨ ((∀ x ∈ cl.features, x ∈ avail) ∧
          (∀ x ∈ cl.features, x ∉ (seedLoop M n tr ta fuel avail acc).1))) := by
  intro fuel
  induction fuel with
  | zero =>
    intro avail acc
    exact ⟨List.Sublist.refl avail, fun cl hcl => Or.inl hcl⟩
  | succ fu ih =>
    intro avail acc
    rw [seedLoop]
    cases hbp : findBestPair M tr avail with
    | none => exact ⟨List.Sublist.refl avail, fun cl hcl => Or.inl hcl⟩
    | some ab =>
      obtain ⟨a, b⟩ := ab
      dsimp only
      obtain ⟨ha, hb, hab, htr⟩ := findBestPair_spec M tr avail a b hbp
      have hmemcluster : ∀ x ∈ admitLoop M tr ta
          (if rowMean M n a > rowMean M n b then a else b)
          (candList M (if rowMean M n a > rowMean M n b then a else b) avail a b)
          [if rowMean M n a > rowMean M n b then a else b,
            if rowMean M n a > rowMean M n b then b else a], x ∈ avail := by
        intro x hx
        rcases admitLoop_mem M tr ta _ _ _ x hx with h1 | h1
        · rcases List.mem_cons.mp h1 with rfl | h2
          · split <;> assumption
          · rw [List.mem_singleton.mp h2]
            split <;> assumption
        · unfold candList at h1
          rw [(List.perm_insertionSort _ _).mem_iff] at h1
          exact (List.mem_filter.mp h1).1
      refine ⟨?_, ?_⟩
      · exact (ih _ _).1.trans (List.filter_sublist avail)
      · intro cl hcl
        rcases (ih _ _).2 cl hcl with h1 | h1
        · rcases List.mem_append.mp h1 with h2 | h2
          · exact Or.inl h2
          · right
            rw [List.mem_singleton.mp h2]
            constructor
            · intro x hx
              dsimp only at hx
              rw [(List.perm_insertionSort _ _).mem_iff] at hx
              exact hmemcluster x hx
            · intro x hx hxr
              dsimp only at hx
              rw [(List.perm_insertionSort _ _).mem_iff] at hx
              have hnotavail : x ∉ avail.filter (fun y =>
                  !((admitLoop M tr ta
                    (if rowMean M n a > rowMean M n b then a else b)
                    (candList M (if rowMean M n a > rowMean M n b then a else b) avail a b)
                    [if rowMean M n a > rowMean M n b then a else b,
                      if rowMean M n a > rowMean M n b then b else a]).contains y)) := by
                intro hmem
                have h2 := (List.mem_filter.mp hmem).2
                simp [hx] at h2
              exact hnotavail ((ih _ _).1.subset hxr)
        · right
          refine ⟨fun x hx => (List.filter_sublist avail).subset (h1.1 x hx), h1.2⟩

lemma outerIter_inv (M : ℕ → ℕ → ℚ) (hsym : ∀ a b, M a b = M b a)
    (n : ℕ) (p : AssocParams) (st : LoopState)
    (hinv : ∀ cl ∈ st.clusters, ClusterInv M p.threshold_root cl) :
    (∀ cl ∈ (outerIter M n p st).1.clusters, ClusterInv M p.threshold_root cl) ∧
    (outerIter M n p st).1.weedLog = st.weedLog ++ [[]] := by
  unfold outerIter
  have hseed := seedLoop_clusterInv M hsym n p.threshold_root p.threshold_avg
    st.avail.length st.avail st.clusters hinv
  have hweed := weedPhase_of_inv M p.threshold_root _ hseed
  dsimp only
  rw [hweed]
  dsimp only
  constructor
  · exact reassignPhase_inv M p.threshold_root p.threshold_avg _ _ _ _ hseed
  · rfl

lemma outerLoop_inv (M : ℕ → ℕ → ℚ) (hsym : ∀ a b, M a b = M b a)
    (n : ℕ) (p : AssocParams) :
    ∀ (fuel : ℕ) (st : LoopState),
      (∀ cl ∈ st.clusters, ClusterInv M p.threshold_root cl) →
      (∀ w ∈ st.weedLog, w = []) →
      (∀ cl ∈ (outerLoop M n p fuel st).clusters, ClusterInv M p.threshold_root cl) ∧
      (∀ w ∈ (outerLoop M n p fuel st).weedLog, w = []) := by
  intro fuel
  induction fuel with
  | zero =>
    intro st h1 h2
    exact ⟨h1, h2⟩
  | succ fu ih =>
    intro st h1 h2
    rw [outerLoop]
    split
    · exact ⟨h1, h2⟩
    · obtain ⟨hinv2, hlog2⟩ := outerIter_inv M hsym n p st h1
      have hlogall : ∀ w ∈ (outerIter M n p st).1.weedLog, w = [] := by
        rw [hlog2]
        intro w hw
        rcases List.mem_append.mp hw with h | h
        · exact h2 w h
        · exact List.mem_singleton.mp h
      dsimp only
      split
      · exact ⟨hinv2, hlogall⟩
      · exact ih _ hinv2 hlogall

lemma finalizeCluster_features_root (M : ℕ → ℕ → ℚ) (n : ℕ) (cl : Cluster) :
    (finalizeCluster M n cl).features = cl.features ∧
      (finalizeCluster M n cl).root = cl.root := by
  unfold finalizeCluster
  dsimp only
  by_cases h : cl.features.length = 1
  · rw [if_pos h]
    exact ⟨rfl, rfl⟩
  · rw [if_neg h]
    exact ⟨rfl, rfl⟩

lemma postProcess_inv (M : ℕ → ℕ → ℚ) (tr : ℚ) (n : ℕ) (avail : List ℕ)
    (clusters : List Cluster)
    (hinv : ∀ cl ∈ clusters, ClusterInv M tr cl) :
    ∀ cl ∈ postProcess M n avail clusters, ∀ f ∈ cl.features, f ≠ cl.root →
      M f cl.root ≥ tr := by
  intro cl hcl f hf hfr
  unfold postProcess at hcl
  have h1 := (List.mem_filter.mp hcl).1
  rw [(List.perm_insertionSort _ _).mem_iff] at h1
  obtain ⟨cl0, hcl0, rfl⟩ := List.mem_map.mp h1
  obtain ⟨hfeat, hroot⟩ := finalizeCluster_features_root M n cl0
  rw [hfeat] at hf
  rw [hroot] at hfr ⊢
  rcases List.mem_append.mp hcl0 with h2 | h2
  · exact (hinv cl0 h2).2 f hf hfr
  · obtain ⟨g, hg, rfl⟩ := List.mem_map.mp h2
    exact absurd (List.mem_singleton.mp hf) hfr

/-- Claim C10: for every store and configuration, the weeding phase never
evicts a feature on any iteration (the instrumented weed log is empty
throughout), and every non-root member f of every returned cluster
satisfies corr_matrix[f, root] >= threshold_root. -/
theorem weeding_never_evicts (s : TStatCorr) (p : AssocParams) :
    (build_associationsRun s p).weedLog.flatten = [] ∧
    ∀ cl ∈ build_associations s p, ∀ f ∈ cl.features, f ≠ cl.root →
      corrMatrix s.pairs s.corr f cl.root ≥ p.threshold_root := by
  unfold build_associationsRun build_associations buildCore
  by_cases hg : s.column_names.length < 2 ∨ s.pairs.length = 0
  · rw [if_pos hg]
    exact ⟨rfl, fun cl hcl => absurd hcl (List.not_mem_nil cl)⟩
  · rw [if_neg hg]
    dsimp only
    have h := outerLoop_inv (corrMatrix s.pairs s.corr)
      (corrMatrix_symm s.pairs s.corr) s.column_names.length p p.max_iters.toNat
      ⟨List.range s.column_names.length, [], 0, []⟩
      (fun cl hcl => absurd hcl (List.not_mem_nil cl))
      (fun w hw => absurd hw (List.not_mem_nil w))
    constructor
    · rw [List.flatten_eq_nil_iff]
      exact h.2
    · exact postProcess_inv (corrMatrix s.pairs s.corr) p.threshold_root
        s.column_names.length _ _ h.1

/-- A one-iteration configuration for concrete runs of the full loop. -/
def paramsOneIter : AssocParams := ⟨4/5, 3/10, 1, 1/10⟩

set_option maxHeartbeats 1000000 in
theorem weeding_never_evicts_witness :
    (build_associationsRun storeDetA paramsOneIter).weedLog.flatten = [] ∧
      corrMatrix storeDetA.pairs storeDetA.corr 0 1 ≥ paramsOneIter.threshold_root := by
  refine ⟨(weeding_never_evicts storeDetA paramsOneIter).1, ?_⟩
  have hrun : build_associations storeDetA paramsOneIter
      = [⟨[0, 1], 1, 9/10, RVal.q 0⟩] := by
    norm_num [build_associations, buildCore, storeDetA, paramsOneIter, corrMatrix,
      corrMatrixBase, matUpd, clampCorr, TStatCorr.getCorrAt, outerLoop, outerIter,
      seedLoop, findBestPair, orderedPairs, rowMean, memberMean, candList, admitLoop,
      weedPhase, weedCluster, listUnion, reassignPhase, chooseCluster, appendAt,
      postProcess, finalizeCluster, meanRV, nonMembers, clusterLE, Int.toNat,
      List.insertionSort, List.orderedInsert, List.range_succ,
      List.filterMap_cons, List.filterMap_nil, List.flatMap_cons, List.flatMap_nil,
      List.foldl_cons, List.foldl_nil]
  have hmem : (⟨[0, 1], 1, 9/10, RVal.q 0⟩ : FinalCluster) ∈
      build_associations storeDetA paramsOneIter := by
    rw [hrun]
    exact List.mem_singleton.mpr rfl
  exact (weeding_never_evicts storeDetA paramsOneIter).2 _ hmem 0
    (by norm_num) (by norm_num)

lemma listUnion_nil_perm (l : List ℕ) : (listUnion l []).Perm l := by
  unfold listUnion
  simp only [List.dedup_nil, List.filter_nil, List.append_nil]
  exact List.perm_insertionSort _ l

/-- The moved count of one outer iteration started from a full pool and no
clusters is always below the feature count: either no cluster forms (nothing
can move), or some cluster root stays outside the pool for the whole
reassignment phase. -/
lemma outerIter_moved_lt (M : ℕ → ℕ → ℚ) (hsym : ∀ a b, M a b = M b a)
    (n : ℕ) (p : AssocParams) (hn : 2 ≤ n) (ic : ℕ) (log : List (List ℕ)) :
    (outerIter M n p ⟨List.range n, [], ic, log⟩).2 < n := by
  unfold outerIter
  dsimp only
  have hinv := seedLoop_clusterInv M hsym n p.threshold_root p.threshold_avg
    (List.range n).length (List.range n) []
    (fun cl hcl => absurd hcl (List.not_mem_nil cl))
  have hw := weedPhase_of_inv M p.threshold_root _ hinv
  rw [hw]
  dsimp only
  cases hs : (seedLoop M n p.threshold_root p.threshold_avg
      (List.range n).length (List.range n) []).2 with
  | nil =>
    rw [reassignPhase_nil_clusters]
    dsimp only
    omega
  | cons cl rest =>
    have hmle := reassignPhase_moved_le M p.threshold_root p.threshold_avg
      (listUnion (seedLoop M n p.threshold_root p.threshold_avg
        (List.range n).length (List.range n) []).1 [])
      (cl :: rest)
      (listUnion (seedLoop M n p.threshold_root p.threshold_avg
        (List.range n).length (List.range n) []).1 []) 0
    have hlen : (listUnion (seedLoop M n p.threshold_root p.threshold_avg
        (List.range n).length (List.range n) []).1 []).length
        = (seedLoop M n p.threshold_root p.threshold_avg
          (List.range n).length (List.range n) []).1.length :=
      (listUnion_nil_perm _).length_eq
    have hstruct := seedLoop_structure M n p.threshold_root p.threshold_avg
      (List.range n).length (List.range n) []
    have hclmem : cl ∈ (seedLoop M n p.threshold_root p.threshold_avg
        (List.range n).length (List.range n) []).2 := by
      rw [hs]
      exact List.mem_cons_self cl rest
    have hclinv := hinv cl hclmem
    rcases hstruct.2 cl hclmem with h | h
    · exact absurd h (List.not_mem_nil cl)
    · have hroot_range : cl.root ∈ List.range n := h.1 cl.root hclinv.1
      have hroot_notavail : cl.root ∉ (seedLoop M n p.threshold_root
          p.threshold_avg (List.range n).length (List.range n) []).1 :=
        h.2 cl.root hclinv.1
      have hsub := hstruct.1
      have hlt : (seedLoop M n p.threshold_root p.threshold_avg
          (List.range n).length (List.range n) []).1.length < n := by
        have hle2 : (seedLoop M n p.threshold_root p.threshold_avg
            (List.range n).length (List.range n) []).1.length
            ≤ (List.range n).length := hsub.length_le
        rcases lt_or_eq_of_le hle2 with h2 | h2
        · simpa using h2
        · exfalso
          have := hsub.eq_of_length h2
          rw [this] at hroot_notavail
          exact hroot_notavail hroot_range
      omega

/-- Claim C3: on any store with at least 2 features and a registered pair,
a configuration with convergence_epsilon = 1.0 and max_iters >= 1 makes
build_associations run exactly one outer iteration (the convergence check
always fires after the first pass), however large max_iters is. -/
theorem epsilon_one_single_iteration (s : TStatCorr) (p : AssocParams)
    (hn : 2 ≤ s.column_names.length) (hp : 1 ≤ s.pairs.length)
    (he : p.convergence_epsilon = 1) (hm : 1 ≤ p.max_iters) :
    (build_associationsRun s p).iterCount = 1 := by
  unfold build_associationsRun buildCore
  rw [if_neg (by push_neg; exact ⟨by omega, by omega⟩)]
  dsimp only
  obtain ⟨k, hk⟩ : ∃ k, p.max_iters.toNat = k + 1 :=
    ⟨p.max_iters.toNat - 1, by omega⟩
  rw [hk, outerLoop]
  rw [if_neg (by
    dsimp only
    rw [List.range_eq_nil]
    omega)]
  dsimp only
  rw [if_pos (by
    rw [he, one_mul]
    have := outerIter_moved_lt (corrMatrix s.pairs s.corr)
      (corrMatrix_symm s.pairs s.corr) s.column_names.length p hn 0 []
    exact_mod_cast this)]
  have : ∀ st : LoopState, (outerIter (corrMatrix s.pairs s.corr)
      s.column_names.length p st).1.iterCount = st.iterCount + 1 := by
    intro st
    unfold outerIter
    rfl
  rw [this]

/-- Store and configuration for the one-iteration witness: a huge max_iters
and convergence_epsilon = 1. -/
def paramsEpsilonOne : AssocParams := ⟨4/5, 3/10, 1000000, 1⟩

theorem epsilon_one_single_iteration_witness :
    (build_associationsRun storeDetA paramsEpsilonOne).iterCount = 1 :=
  epsilon_one_single_iteration storeDetA paramsEpsilonOne
    (by norm_num [storeDetA]) (by norm_num [storeDetA])
    (by norm_num [paramsEpsilonOne]) (by norm_num [paramsEpsilonOne])
